import Mathlib

/-!
Shallow embedding of `src/ringbuffer-c/main.c`: a fixed-capacity circular
byte buffer (`ringbuffer_t` with `buffer`, `head`, `tail`, `size`), a
bit-wise CRC-8 checksum (`crc8`), and two message-framing helpers
(`rb_log_message`, `rb_log_message_crc`).

Bytes are modelled as `Nat` with explicit `% 256` where the C code
truncates to `uint8_t`; the C `int` indices `head`/`tail` are modelled as
`Nat` (the code keeps them in `[0, size)` via `% size`).  Fallible
operations return a `Bool` success flag (`rb_push`) or an `Option`
(`rb_pop`), mirroring the C return conventions.
-/

/-- Inner-loop body of `crc8`: one shift step of the register
(`if (crc & 0x80) crc = (crc << 1) ^ 0x07; else crc <<= 1;`, with the
register truncated to 8 bits as a `uint8_t`). -/
def crc8_bit (crc : Nat) : Nat :=
  if crc &&& 0x80 ≠ 0 then ((crc <<< 1) ^^^ 0x07) % 256 else (crc <<< 1) % 256

/-- The inner `for (int j = 0; j < 8; j++)` loop of `crc8`, iterated `n`
times. -/
def crc8_bits : Nat → Nat → Nat
  | crc, 0 => crc
  | crc, n + 1 => crc8_bits (crc8_bit crc) n

/-- One iteration of the outer loop of `crc8`: `crc ^= (uint8_t)data[i]`
followed by the eight shift steps. -/
def crc8_byte (crc b : Nat) : Nat :=
  crc8_bits ((crc ^^^ b % 256) % 256) 8

/-- Embedding of `crc8` from `main.c`: fold the per-byte update over the
data, starting from the register value `0x00`. -/
def crc8 (data : List Nat) : Nat :=
  data.foldl crc8_byte 0x00

/-- Checksum contract written from the spec's words (§4.1): "classic
bit-wise CRC-8 using polynomial 0x07, initial register value 0x00": for
each input byte `register ^= byte`, then eight times: if the high bit
(bit 7) of the register is set, `register = (register << 1) XOR 0x07`,
else `register = register << 1`, keeping the register to 8 bits. -/
def checksum (data : List Nat) : Nat :=
  data.foldl
    (fun register byte =>
      (List.range 8).foldl
        (fun r _ =>
          if r.testBit 7 then ((r <<< 1) ^^^ 0x07) % 256 else (r <<< 1) % 256)
        ((register ^^^ byte % 256) % 256))
    0x00

/-- Embedding of `ringbuffer_t`: backing storage, write cursor `head`,
read cursor `tail`, and capacity `size`. -/
structure Ringbuffer where
  buffer : List Nat
  head : Nat
  tail : Nat
  size : Nat
deriving DecidableEq

/-- Embedding of `rb_init`: `malloc` the storage (its indeterminate
contents are the parameter `mem`) and set `head = tail = 0`.  Note the C
code performs no validation of `size`. -/
def rb_init (size : Nat) (mem : List Nat) : Ringbuffer :=
  { buffer := mem, head := 0, tail := 0, size := size }

/-- Embedding of `rb_is_full`: `(head + 1) % size == tail`. -/
def rb_is_full (rb : Ringbuffer) : Bool :=
  (rb.head + 1) % rb.size == rb.tail

/-- Embedding of `rb_is_empty`: `head == tail`. -/
def rb_is_empty (rb : Ringbuffer) : Bool :=
  rb.head == rb.tail

/-- Embedding of `rb_push`: fail (returning `false`) if full, else write
`data` at `buffer[head]` and advance `head = (head + 1) % size`. -/
def rb_push (rb : Ringbuffer) (data : Nat) : Ringbuffer × Bool :=
  if rb_is_full rb then (rb, false)
  else ({ rb with buffer := rb.buffer.set rb.head data,
                  head := (rb.head + 1) % rb.size }, true)

/-- Embedding of `rb_pop`: fail (returning `none`) if empty, else read
`buffer[tail]` and advance `tail = (tail + 1) % size`. -/
def rb_pop (rb : Ringbuffer) : Ringbuffer × Option Nat :=
  if rb_is_empty rb then (rb, none)
  else ({ rb with tail := (rb.tail + 1) % rb.size },
        some (rb.buffer.getD rb.tail 0))

/-- Embedding of `rb_log_message`: push the message bytes one at a time,
stopping at the first failed push (`if (!rb_push(rb, msg[i])) break;`). -/
def rb_log_message (rb : Ringbuffer) (msg : List Nat) : Ringbuffer :=
  match msg with
  | [] => rb
  | b :: rest =>
      match rb_push rb b with
      | (rb1, true) => rb_log_message rb1 rest
      | (rb1, false) => rb1

/-- The push loop of `rb_log_message_crc`: push every byte in order,
ignoring the success flag (the C code discards `rb_push`'s return value
there). -/
def rb_pushAll (rb : Ringbuffer) (msg : List Nat) : Ringbuffer :=
  msg.foldl (fun r b => (rb_push r b).1) rb

/-- Embedding of `rb_log_message_crc`: compute the CRC of the complete
message, push every message byte, then push the CRC byte, never
inspecting push failures. -/
def rb_log_message_crc (rb : Ringbuffer) (msg : List Nat) : Ringbuffer :=
  let crc := crc8 msg
  (rb_push (rb_pushAll rb msg) crc).1

/-- Number of bytes currently resident: distance from `tail` forward to
`head`, modulo `size` (ghost function for specification). -/
def rb_count (rb : Ringbuffer) : Nat :=
  (rb.head + rb.size - rb.tail) % rb.size

/-- Resident bytes in pop order, read cyclically from `tail` (ghost
function for specification). -/
def rb_contents (rb : Ringbuffer) : List Nat :=
  (List.range (rb_count rb)).map (fun i => rb.buffer.getD ((rb.tail + i) % rb.size) 0)

/-- Structural well-formedness: positive capacity, cursors in range, and
storage of exactly `size` bytes (as `rb_init` allocates). -/
def rb_wf (rb : Ringbuffer) : Prop :=
  1 ≤ rb.size ∧ rb.head < rb.size ∧ rb.tail < rb.size ∧ rb.buffer.length = rb.size

/-- Pop `n` times, collecting the returned bytes; stop early if a pop
fails (the consumer's repeated-pop drain loop, bounded to `n` pops). -/
def rb_drain (rb : Ringbuffer) : Nat → Ringbuffer × List Nat
  | 0 => (rb, [])
  | n + 1 =>
      match rb_pop rb with
      | (rb1, some b) =>
          let r := rb_drain rb1 n
          (r.1, b :: r.2)
      | (rb1, none) => (rb1, [])

/-- One client operation on the buffer: a push of a byte, or a pop. -/
inductive RbOp where
  | push : Nat → RbOp
  | pop : RbOp
deriving DecidableEq

/-- Run a sequence of operations, returning the final state, the list of
bytes whose push succeeded (in order), and the list of bytes returned by
successful pops (in order). -/
def rb_run (rb : Ringbuffer) : List RbOp → Ringbuffer × List Nat × List Nat
  | [] => (rb, [], [])
  | RbOp.push b :: ops =>
      let p := rb_push rb b
      let r := rb_run p.1 ops
      (r.1, if p.2 then b :: r.2.1 else r.2.1, r.2.2)
  | RbOp.pop :: ops =>
      match rb_pop rb with
      | (rb1, some b) =>
          let r := rb_run rb1 ops
          (r.1, r.2.1, b :: r.2.2)
      | (rb1, none) => rb_run rb1 ops

/-- Closed form for a remainder whose argument lies below `2 * s`. -/
lemma mod_span (a s : Nat) (_hs : 0 < s) (h : a < 2 * s) :
    a % s = if a < s then a else a - s := by
  split
  · exact Nat.mod_eq_of_lt (by assumption)
  · rw [Nat.mod_eq_sub_mod (by omega)]
    exact Nat.mod_eq_of_lt (by omega)

/-- The resident count is zero exactly when the cursors coincide. -/
lemma count_zero_iff (h t s : Nat) (hh : h < s) (ht : t < s) :
    (h + s - t) % s = 0 ↔ h = t := by
  rw [mod_span (h + s - t) s (by omega) (by omega)]
  split <;> omega

/-- The full test `(h + 1) % s = t` holds exactly when the resident count
is `s - 1`. -/
lemma full_count_iff (h t s : Nat) (hh : h < s) (ht : t < s) :
    (h + 1) % s = t ↔ (h + s - t) % s = s - 1 := by
  rw [mod_span (h + 1) s (by omega) (by omega),
      mod_span (h + s - t) s (by omega) (by omega)]
  split <;> split <;> omega

/-- Advancing the head of a non-full buffer increments the resident
count. -/
lemma count_push (h t s : Nat) (hh : h < s) (ht : t < s)
    (hnf : (h + 1) % s ≠ t) :
    ((h + 1) % s + s - t) % s = (h + s - t) % s + 1 := by
  rcases Nat.lt_or_ge (h + 1) s with hc | hc
  · rw [Nat.mod_eq_of_lt hc] at hnf ⊢
    rw [mod_span (h + 1 + s - t) s (by omega) (by omega),
        mod_span (h + s - t) s (by omega) (by omega)]
    split <;> split <;> omega
  · have hc2 : h + 1 = s := by omega
    rw [hc2, Nat.mod_self] at hnf ⊢
    rw [mod_span (0 + s - t) s (by omega) (by omega),
        mod_span (h + s - t) s (by omega) (by omega)]
    split <;> split <;> omega

/-- Slots strictly before the head (in cyclic order from the tail) are
distinct from the head slot. -/
lemma idx_ne_head (h t s i : Nat) (hh : h < s) (ht : t < s)
    (hi : i < (h + s - t) % s) : (t + i) % s ≠ h := by
  have hcs : (h + s - t) % s < s := Nat.mod_lt _ (by omega)
  have his : i < s := by omega
  rw [mod_span (h + s - t) s (by omega) (by omega)] at hi
  rw [mod_span (t + i) s (by omega) (by omega)]
  split at hi <;> split <;> omega

/-- Counting `rb_count` slots forward from the tail lands on the head. -/
lemma idx_last_eq_head (h t s : Nat) (hh : h < s) (ht : t < s) :
    (t + (h + s - t) % s) % s = h := by
  rw [mod_span (h + s - t) s (by omega) (by omega)]
  split
  · rw [mod_span _ s (by omega) (by omega)]
    split <;> omega
  · rw [mod_span _ s (by omega) (by omega)]
    split <;> omega

/-- Advancing the tail of a non-empty buffer decrements the resident
count. -/
lemma count_pop (h t s : Nat) (hh : h < s) (ht : t < s) (hne : h ≠ t) :
    (h + s - (t + 1) % s) % s = (h + s - t) % s - 1 := by
  rcases Nat.lt_or_ge (t + 1) s with hc | hc
  · rw [Nat.mod_eq_of_lt hc,
        mod_span (h + s - (t + 1)) s (by omega) (by omega),
        mod_span (h + s - t) s (by omega) (by omega)]
    split <;> split <;> omega
  · have hc2 : t + 1 = s := by omega
    rw [hc2, Nat.mod_self, Nat.sub_zero,
        mod_span (h + s) s (by omega) (by omega),
        mod_span (h + s - t) s (by omega) (by omega)]
    split <;> split <;> omega

/-- Reading `i` slots past an advanced tail is reading `i + 1` slots past
the original tail. -/
lemma idx_shift (t s i : Nat) :
    ((t + 1) % s + i) % s = (t + (i + 1)) % s := by
  rw [Nat.mod_add_mod]
  congr 1
  omega

/-- Advancing a cursor by one (mod `s ≥ 2`) always moves it. -/
lemma succ_mod_ne (h s : Nat) (hh : h < s) (hs : 2 ≤ s) :
    (h + 1) % s ≠ h := by
  rw [mod_span (h + 1) s (by omega) (by omega)]
  split <;> omega

/-- Length of the resident-bytes list is the resident count. -/
lemma rb_contents_length (rb : Ringbuffer) :
    (rb_contents rb).length = rb_count rb := by
  simp [rb_contents]

/-- The resident count is below the capacity. -/
lemma rb_count_lt (rb : Ringbuffer) (hs : 1 ≤ rb.size) :
    rb_count rb < rb.size :=
  Nat.mod_lt _ hs

/-- On a well-formed buffer, `rb_is_empty` answers whether the resident
count is zero. -/
lemma rb_empty_iff (rb : Ringbuffer) (hwf : rb_wf rb) :
    rb_is_empty rb = true ↔ rb_count rb = 0 := by
  obtain ⟨hs, hh, ht, hb⟩ := hwf
  simp only [rb_is_empty, beq_iff_eq, rb_count]
  exact (count_zero_iff rb.head rb.tail rb.size hh ht).symm

/-- On a well-formed buffer, `rb_is_full` answers whether the resident
count is `size - 1`. -/
lemma rb_full_iff (rb : Ringbuffer) (hwf : rb_wf rb) :
    rb_is_full rb = true ↔ rb_count rb = rb.size - 1 := by
  obtain ⟨hs, hh, ht, hb⟩ := hwf
  simp only [rb_is_full, beq_iff_eq, rb_count]
  exact full_count_iff rb.head rb.tail rb.size hh ht

/-- A fresh buffer with storage of the right length is well-formed. -/
lemma rb_init_wf (c : Nat) (mem : List Nat) (hc : 1 ≤ c)
    (hm : mem.length = c) : rb_wf (rb_init c mem) :=
  ⟨hc, hc, hc, hm⟩

/-- A fresh buffer holds no bytes. -/
lemma rb_init_contents (c : Nat) (mem : List Nat) :
    rb_contents (rb_init c mem) = [] := by
  simp [rb_contents, rb_count, rb_init]

/-- Pushing into a full buffer fails and leaves the state unchanged. -/
lemma rb_push_full (rb : Ringbuffer) (b : Nat) (hf : rb_is_full rb = true) :
    rb_push rb b = (rb, false) := by
  simp [rb_push, hf]

/-- Pushing into a non-full well-formed buffer succeeds and appends the
byte to the resident contents. -/
lemma rb_push_ok (rb : Ringbuffer) (b : Nat) (hwf : rb_wf rb)
    (hnf : rb_is_full rb = false) :
    ∃ rb1, rb_push rb b = (rb1, true) ∧ rb_wf rb1 ∧ rb1.size = rb.size ∧
      rb1.tail = rb.tail ∧ rb_contents rb1 = rb_contents rb ++ [b] := by
  obtain ⟨hs, hh, ht, hb⟩ := hwf
  have hnf' : (rb.head + 1) % rb.size ≠ rb.tail := by
    simpa [rb_is_full] using hnf
  refine ⟨{ rb with buffer := rb.buffer.set rb.head b,
                    head := (rb.head + 1) % rb.size },
          by simp [rb_push, hnf], ⟨hs, Nat.mod_lt _ hs, ht, by simpa using hb⟩,
          rfl, rfl, ?_⟩
  have hcount : rb_count { rb with buffer := rb.buffer.set rb.head b,
                                   head := (rb.head + 1) % rb.size }
      = rb_count rb + 1 := by
    simp only [rb_count]
    exact count_push rb.head rb.tail rb.size hh ht hnf'
  simp only [rb_contents, hcount, List.range_succ, List.map_append]
  congr 1
  · apply List.map_congr_left
    intro i hi
    have hi' : i < (rb.head + rb.size - rb.tail) % rb.size :=
      List.mem_range.mp hi
    have hne : (rb.tail + i) % rb.size ≠ rb.head :=
      idx_ne_head rb.head rb.tail rb.size i hh ht hi'
    simp [List.getD_eq_getElem?_getD, List.getElem?_set_ne (Ne.symm hne)]
  · have hidx : (rb.tail + rb_count rb) % rb.size = rb.head :=
      idx_last_eq_head rb.head rb.tail rb.size hh ht
    have hhb : rb.head < rb.buffer.length := by omega
    simp only [List.map_cons, List.map_nil]
    rw [hidx]
    simp [List.getD_eq_getElem?_getD, List.getElem?_set_self, hhb]

/-- Popping an empty buffer fails and leaves the state unchanged. -/
lemma rb_pop_empty (rb : Ringbuffer) (he : rb_is_empty rb = true) :
    rb_pop rb = (rb, none) := by
  simp [rb_pop, he]

/-- Popping a non-empty well-formed buffer succeeds, returning the front
of the resident contents. -/
lemma rb_pop_ok (rb : Ringbuffer) (hwf : rb_wf rb)
    (hne : rb_is_empty rb = false) :
    ∃ rb1, rb_pop rb = (rb1, some (rb.buffer.getD rb.tail 0)) ∧ rb_wf rb1 ∧
      rb1.size = rb.size ∧ rb1.head = rb.head ∧ rb1.buffer = rb.buffer ∧
      rb_count rb1 = rb_count rb - 1 ∧
      rb_contents rb = rb.buffer.getD rb.tail 0 :: rb_contents rb1 := by
  obtain ⟨hs, hh, ht, hb⟩ := hwf
  have hne' : rb.head ≠ rb.tail := by
    simpa [rb_is_empty] using hne
  have hcount : rb_count { rb with tail := (rb.tail + 1) % rb.size }
      = rb_count rb - 1 := by
    simp only [rb_count]
    exact count_pop rb.head rb.tail rb.size hh ht hne'
  refine ⟨{ rb with tail := (rb.tail + 1) % rb.size },
          by simp [rb_pop, hne], ⟨hs, hh, Nat.mod_lt _ hs, hb⟩,
          rfl, rfl, rfl, hcount, ?_⟩
  have hc0 : rb_count rb ≠ 0 := by
    intro h0
    exact hne' ((count_zero_iff rb.head rb.tail rb.size hh ht).mp h0)
  obtain ⟨k, hk⟩ := Nat.exists_eq_succ_of_ne_zero hc0
  have hk1 : rb_count { rb with tail := (rb.tail + 1) % rb.size } = k := by
    omega
  simp only [rb_contents, hk, hk1, List.range_succ_eq_map, List.map_cons,
    List.map_map]
  congr 1
  · simp [Nat.mod_eq_of_lt ht]
  · apply List.map_congr_left
    intro i _
    simp only [Function.comp_apply]
    rw [idx_shift rb.tail rb.size i]

/-- Pushing a list of bytes that fits in the free space (always leaving
the reserved slot) succeeds slot by slot and appends the whole list to
the resident contents. -/
lemma rb_pushAll_ok (msg : List Nat) :
    ∀ rb : Ringbuffer, rb_wf rb → rb_count rb + msg.length + 1 ≤ rb.size →
      rb_wf (rb_pushAll rb msg) ∧ (rb_pushAll rb msg).size = rb.size ∧
        rb_contents (rb_pushAll rb msg) = rb_contents rb ++ msg := by
  induction msg with
  | nil =>
      intro rb hwf _
      exact ⟨hwf, rfl, by simp [rb_pushAll]⟩
  | cons b rest ih =>
      intro rb hwf hfit
      have hnf : rb_is_full rb = false := by
        rcases Bool.eq_false_or_eq_true (rb_is_full rb) with h | h
        · exfalso
          have hfull := (rb_full_iff rb hwf).mp h
          have hs := hwf.1
          simp only [List.length_cons] at hfit
          omega
        · exact h
      obtain ⟨rb1, hpush, hwf1, hsize1, _, hcont1⟩ := rb_push_ok rb b hwf hnf
      have hcount1 : rb_count rb1 = rb_count rb + 1 := by
        have hlen := congrArg List.length hcont1
        simpa [rb_contents_length] using hlen
      have hfit1 : rb_count rb1 + rest.length + 1 ≤ rb1.size := by
        simp only [List.length_cons] at hfit
        omega
      have hstep : rb_pushAll rb (b :: rest) = rb_pushAll rb1 rest := by
        simp [rb_pushAll, hpush]
      obtain ⟨hwfF, hsizeF, hcontF⟩ := ih rb1 hwf1 hfit1
      rw [hstep]
      refine ⟨hwfF, hsizeF.trans hsize1, ?_⟩
      rw [hcontF, hcont1]
      simp

/-- Draining exactly the resident count yields the resident contents in
order and leaves the buffer empty. -/
lemma rb_drain_ok (n : Nat) :
    ∀ rb : Ringbuffer, rb_wf rb → rb_count rb = n →
      rb_wf (rb_drain rb n).1 ∧ (rb_drain rb n).2 = rb_contents rb ∧
        rb_is_empty (rb_drain rb n).1 = true := by
  induction n with
  | zero =>
      intro rb hwf hcount
      refine ⟨hwf, ?_, (rb_empty_iff rb hwf).mpr hcount⟩
      simp [rb_drain, rb_contents, hcount]
  | succ n ih =>
      intro rb hwf hcount
      have hne : rb_is_empty rb = false := by
        rcases Bool.eq_false_or_eq_true (rb_is_empty rb) with h | h
        · exfalso
          have := (rb_empty_iff rb hwf).mp h
          omega
        · exact h
      obtain ⟨rb1, hpop, hwf1, _, _, _, hcount1, hsplit⟩ := rb_pop_ok rb hwf hne
      have hcount1' : rb_count rb1 = n := by omega
      obtain ⟨hwfF, hdrF, hempF⟩ := ih rb1 hwf1 hcount1'
      have hstep : rb_drain rb (n + 1)
          = ((rb_drain rb1 n).1, rb.buffer.getD rb.tail 0 :: (rb_drain rb1 n).2) := by
        simp [rb_drain, hpop]
      rw [hstep]
      exact ⟨hwfF, by rw [hsplit, hdrF], hempF⟩

/-- Running any operation sequence on a well-formed buffer preserves
well-formedness and the capacity, and the successfully popped bytes
followed by the remaining resident bytes are exactly the initial resident
bytes followed by the successfully pushed bytes. -/
lemma rb_run_ok (ops : List RbOp) :
    ∀ rb : Ringbuffer, rb_wf rb →
      rb_wf (rb_run rb ops).1 ∧ (rb_run rb ops).1.size = rb.size ∧
        (rb_run rb ops).2.2 ++ rb_contents (rb_run rb ops).1
          = rb_contents rb ++ (rb_run rb ops).2.1 := by
  induction ops with
  | nil =>
      intro rb hwf
      exact ⟨hwf, rfl, by simp [rb_run]⟩
  | cons op ops ih =>
      intro rb hwf
      cases op with
      | push b =>
          rcases Bool.eq_false_or_eq_true (rb_is_full rb) with hf | hnf
          · have hpush := rb_push_full rb b hf
            obtain ⟨hwfF, hsizeF, hrelF⟩ := ih rb hwf
            have hstep : rb_run rb (RbOp.push b :: ops)
                = ((rb_run rb ops).1, (rb_run rb ops).2.1,
                   (rb_run rb ops).2.2) := by
              simp [rb_run, hpush]
            rw [hstep]
            exact ⟨hwfF, hsizeF, hrelF⟩
          · obtain ⟨rb1, hpush, hwf1, hsize1, _, hcont1⟩ := rb_push_ok rb b hwf hnf
            obtain ⟨hwfF, hsizeF, hrelF⟩ := ih rb1 hwf1
            have hstep : rb_run rb (RbOp.push b :: ops)
                = ((rb_run rb1 ops).1, b :: (rb_run rb1 ops).2.1,
                   (rb_run rb1 ops).2.2) := by
              simp [rb_run, hpush]
            rw [hstep]
            refine ⟨hwfF, hsizeF.trans hsize1, ?_⟩
            rw [hrelF, hcont1]
            simp
      | pop =>
          rcases Bool.eq_false_or_eq_true (rb_is_empty rb) with he | hne
          · have hpop := rb_pop_empty rb he
            obtain ⟨hwfF, hsizeF, hrelF⟩ := ih rb hwf
            have hstep : rb_run rb (RbOp.pop :: ops) = rb_run rb ops := by
              simp [rb_run, hpop]
            rw [hstep]
            exact ⟨hwfF, hsizeF, hrelF⟩
          · obtain ⟨rb1, hpop, hwf1, hsize1, _, _, _, hsplit⟩ := rb_pop_ok rb hwf hne
            obtain ⟨hwfF, hsizeF, hrelF⟩ := ih rb1 hwf1
            have hstep : rb_run rb (RbOp.pop :: ops)
                = ((rb_run rb1 ops).1, (rb_run rb1 ops).2.1,
                   rb.buffer.getD rb.tail 0 :: (rb_run rb1 ops).2.2) := by
              simp [rb_run, hpop]
            rw [hstep]
            refine ⟨hwfF, hsizeF.trans hsize1, ?_⟩
            rw [List.cons_append, hrelF, hsplit, List.cons_append]

/-- A non-full well-formed buffer is one whose resident count is not
`size - 1`. -/
lemma rb_not_full (rb : Ringbuffer) (hwf : rb_wf rb)
    (h : rb_count rb ≠ rb.size - 1) : rb_is_full rb = false := by
  rcases Bool.eq_false_or_eq_true (rb_is_full rb) with hf | hnf
  · exact absurd ((rb_full_iff rb hwf).mp hf) h
  · exact hnf

/-- The code's high-bit test `crc & 0x80` agrees with testing bit 7. -/
lemma crc8_bit_eq (r : Nat) :
    crc8_bit r
      = if r.testBit 7 then ((r <<< 1) ^^^ 0x07) % 256 else (r <<< 1) % 256 := by
  have h2 : r &&& 0x80 = (if r.testBit 7 then 128 else 0 : Nat) := by
    have := Nat.and_two_pow r 7
    rcases Bool.eq_false_or_eq_true (r.testBit 7) with hb | hb <;> simp_all
  rcases Bool.eq_false_or_eq_true (r.testBit 7) with hb | hb <;>
    simp [crc8_bit, h2, hb]

/-- Peeling the last iteration off the inner shift loop. -/
lemma crc8_bits_succ (n : Nat) :
    ∀ r, crc8_bits r (n + 1) = crc8_bit (crc8_bits r n) := by
  induction n with
  | zero => intro r; rfl
  | succ n ih =>
      intro r
      show crc8_bits (crc8_bit r) (n + 1) = crc8_bit (crc8_bits (crc8_bit r) n)
      exact ih (crc8_bit r)

/-- The inner shift loop agrees with the spec's eight-fold fold. -/
lemma crc8_bits_eq (n : Nat) (r : Nat) :
    crc8_bits r n
      = (List.range n).foldl
          (fun a _ =>
            if a.testBit 7 then ((a <<< 1) ^^^ 0x07) % 256 else (a <<< 1) % 256)
          r := by
  induction n with
  | zero => rfl
  | succ n ih =>
      rw [crc8_bits_succ, ih, List.range_succ, List.foldl_append]
      simp [crc8_bit_eq]

/-- C1 (counterexample): constructing a buffer with capacity 1 (< 2) is
not rejected: `rb_init` returns an ordinary buffer record with
`head = tail = 0` and `size = 1`, and on that buffer both `rb_is_empty`
and `rb_is_full` report `true`, so the full/empty distinction is already
ill-defined while construction signalled no failure. -/
theorem rb_init_accepts_capacity_one :
    rb_init 1 [0] = { buffer := [0], head := 0, tail := 0, size := 1 } ∧
    rb_is_empty (rb_init 1 [0]) = true ∧ rb_is_full (rb_init 1 [0]) = true :=
  ⟨rfl, rfl, rfl⟩

/-- C1 (amended): `rb_init` performs no capacity validation: for every
capacity `c`, including `c < 2`, it returns the buffer
`⟨mem, 0, 0, c⟩` without any failure signal; with capacity 1 the
resulting buffer reports both empty and full, so every push fails and
the caller must guard `capacity ≥ 2` itself. -/
theorem rb_init_no_validation (c : Nat) (mem : List Nat) (b : Nat) :
    rb_init c mem = { buffer := mem, head := 0, tail := 0, size := c } ∧
    rb_is_empty (rb_init 1 mem) = true ∧
    rb_is_full (rb_init 1 mem) = true ∧
    rb_push (rb_init 1 mem) b = (rb_init 1 mem, false) := by
  have hf : rb_is_full (rb_init 1 mem) = true := by
    simp [rb_is_full, rb_init]
  exact ⟨rfl, rfl, hf, rb_push_full (rb_init 1 mem) b hf⟩

/-- C4: `crc8` implements the bit-wise CRC-8 described by the spec
(polynomial `0x07`, initial register `0x00`, no reflection, no final
XOR, register kept to 8 bits), it is a pure function of the byte
sequence, and the empty input yields `0x00`. -/
theorem crc8_conforms :
    crc8 [] = 0 ∧ ∀ data : List Nat, crc8 data = checksum data := by
  refine ⟨rfl, fun data => ?_⟩
  simp only [crc8, checksum]
  congr 1
  funext register byte
  simp only [crc8_byte]
  exact crc8_bits_eq 8 ((register ^^^ byte % 256) % 256)

/-- C5: `rb_push` is atomic on a full buffer: for every state, if the
buffer is full the push fails returning the state unchanged; otherwise
it writes the byte at `storage[head]`, advances
`head = (head + 1) mod capacity`, and succeeds. -/
theorem rb_push_atomic (rb : Ringbuffer) (b : Nat) :
    (rb_is_full rb = true → rb_push rb b = (rb, false)) ∧
    (rb_is_full rb = false →
      rb_push rb b = ({ rb with buffer := rb.buffer.set rb.head b,
                                head := (rb.head + 1) % rb.size }, true)) :=
  ⟨fun hf => rb_push_full rb b hf, fun hnf => by simp [rb_push, hnf]⟩

/-- Witness for C5 at capacity 2: the full state `⟨[5,6],1,0,2⟩` rejects
a push unchanged, the non-full state `⟨[5,6],0,0,2⟩` accepts it. -/
theorem rb_push_atomic_witness :
    rb_push { buffer := [5, 6], head := 1, tail := 0, size := 2 } 9
      = ({ buffer := [5, 6], head := 1, tail := 0, size := 2 }, false) ∧
    rb_push { buffer := [5, 6], head := 0, tail := 0, size := 2 } 9
      = ({ buffer := [9, 6], head := 1, tail := 0, size := 2 }, true) :=
  ⟨(rb_push_atomic { buffer := [5, 6], head := 1, tail := 0, size := 2 } 9).1
      (by decide),
   (rb_push_atomic { buffer := [5, 6], head := 0, tail := 0, size := 2 } 9).2
      (by decide)⟩

/-- C6: `rb_pop` is atomic on an empty buffer: for every state, if the
buffer is empty the pop fails returning the state unchanged; otherwise
it returns `storage[tail]`, advances `tail = (tail + 1) mod capacity`,
and succeeds. -/
theorem rb_pop_atomic (rb : Ringbuffer) :
    (rb_is_empty rb = true → rb_pop rb = (rb, none)) ∧
    (rb_is_empty rb = false →
      rb_pop rb = ({ rb with tail := (rb.tail + 1) % rb.size },
                   some (rb.buffer.getD rb.tail 0))) :=
  ⟨fun he => rb_pop_empty rb he, fun hne => by simp [rb_pop, hne]⟩

/-- Witness for C6 at capacity 2: the empty state `⟨[5,6],1,1,2⟩` rejects
a pop unchanged, the non-empty state `⟨[5,6],1,0,2⟩` yields byte 5. -/
theorem rb_pop_atomic_witness :
    rb_pop { buffer := [5, 6], head := 1, tail := 1, size := 2 }
      = ({ buffer := [5, 6], head := 1, tail := 1, size := 2 }, none) ∧
    rb_pop { buffer := [5, 6], head := 1, tail := 0, size := 2 }
      = ({ buffer := [5, 6], head := 1, tail := 1, size := 2 }, some 5) :=
  ⟨(rb_pop_atomic { buffer := [5, 6], head := 1, tail := 1, size := 2 }).1
      (by decide),
   (rb_pop_atomic { buffer := [5, 6], head := 1, tail := 0, size := 2 }).2
      (by decide)⟩

/-- C7: `rb_log_message` stops at the first failed push, discarding the
rest of the message and appending no checksum; concretely, with capacity
4 and message `"abcdef"`, exactly `'a','b','c'` are stored and the
buffer reports full. -/
theorem rb_log_message_truncates :
    (∀ (rb : Ringbuffer) (b : Nat) (rest : List Nat),
      rb_is_full rb = true → rb_log_message rb (b :: rest) = rb) ∧
    rb_contents (rb_log_message (rb_init 4 [0, 0, 0, 0])
        [97, 98, 99, 100, 101, 102]) = [97, 98, 99] ∧
    rb_is_full (rb_log_message (rb_init 4 [0, 0, 0, 0])
        [97, 98, 99, 100, 101, 102]) = true := by
  refine ⟨?_, by decide, by decide⟩
  intro rb b rest hf
  simp [rb_log_message, rb_push_full rb b hf]

/-- Witness for C7's general clause: logging onto the full state
`⟨[7,8],1,0,2⟩` leaves it unchanged, the whole message discarded. -/
theorem rb_log_message_truncates_witness :
    rb_log_message { buffer := [7, 8], head := 1, tail := 0, size := 2 } [3, 4]
      = { buffer := [7, 8], head := 1, tail := 0, size := 2 } :=
  rb_log_message_truncates.1
    { buffer := [7, 8], head := 1, tail := 0, size := 2 } 3 [4] (by decide)

/-- C2: FIFO behaviour: for every capacity `c ≥ 2` and every sequence of
at most `c - 1` bytes pushed into a fresh buffer, the pushed bytes are
all resident in order, popping that many times returns exactly them in
push order, and the buffer is empty again afterwards. -/
theorem rb_fifo (c : Nat) (mem msg : List Nat) (hc : 2 ≤ c)
    (hm : mem.length = c) (hlen : msg.length ≤ c - 1) :
    rb_contents (rb_pushAll (rb_init c mem) msg) = msg ∧
    (rb_drain (rb_pushAll (rb_init c mem) msg) msg.length).2 = msg ∧
    rb_is_empty (rb_drain (rb_pushAll (rb_init c mem) msg) msg.length).1
      = true := by
  have hwf0 := rb_init_wf c mem (by omega) hm
  have hcount0 : rb_count (rb_init c mem) = 0 := by simp [rb_count, rb_init]
  have hfit : rb_count (rb_init c mem) + msg.length + 1
      ≤ (rb_init c mem).size := by
    rw [hcount0]
    show 0 + msg.length + 1 ≤ c
    omega
  obtain ⟨hwf1, hsize1, hcont1⟩ := rb_pushAll_ok msg (rb_init c mem) hwf0 hfit
  rw [rb_init_contents, List.nil_append] at hcont1
  have hcount1 : rb_count (rb_pushAll (rb_init c mem) msg) = msg.length := by
    rw [← rb_contents_length, hcont1]
  obtain ⟨_, hdr, hemp⟩ :=
    rb_drain_ok msg.length (rb_pushAll (rb_init c mem) msg) hwf1 hcount1
  exact ⟨hcont1, by rw [hdr, hcont1], hemp⟩

/-- Witness for C2 at capacity 4 with message `[10, 20, 30]`. -/
theorem rb_fifo_witness :
    rb_contents (rb_pushAll (rb_init 4 [0, 0, 0, 0]) [10, 20, 30])
      = [10, 20, 30] ∧
    (rb_drain (rb_pushAll (rb_init 4 [0, 0, 0, 0]) [10, 20, 30]) 3).2
      = [10, 20, 30] ∧
    rb_is_empty (rb_drain (rb_pushAll (rb_init 4 [0, 0, 0, 0]) [10, 20, 30]) 3).1
      = true :=
  rb_fifo 4 [0, 0, 0, 0] [10, 20, 30] (by decide) (by decide) (by decide)

/-- C3: CRC round-trip: for every message strictly shorter than
`capacity - 1` framed by `rb_log_message_crc` into a fresh buffer,
exactly the message bytes followed by `crc8` of the message are
resident; draining `length + 1` bytes returns them in that order, the
checksum recomputed over the first `length` drained bytes equals the
last drained byte, and the buffer is empty afterwards. -/
theorem crc_roundtrip (c : Nat) (mem msg : List Nat) (hc : 2 ≤ c)
    (hm : mem.length = c) (hlen : msg.length < c - 1) :
    rb_contents (rb_log_message_crc (rb_init c mem) msg)
      = msg ++ [crc8 msg] ∧
    (rb_drain (rb_log_message_crc (rb_init c mem) msg) (msg.length + 1)).2
      = msg ++ [crc8 msg] ∧
    crc8 ((rb_drain (rb_log_message_crc (rb_init c mem) msg)
        (msg.length + 1)).2.take msg.length)
      = (rb_drain (rb_log_message_crc (rb_init c mem) msg)
        (msg.length + 1)).2.getD msg.length 0 ∧
    rb_is_empty (rb_drain (rb_log_message_crc (rb_init c mem) msg)
        (msg.length + 1)).1 = true := by
  have hwf0 := rb_init_wf c mem (by omega) hm
  have hcount0 : rb_count (rb_init c mem) = 0 := by simp [rb_count, rb_init]
  have hfit : rb_count (rb_init c mem) + msg.length + 1
      ≤ (rb_init c mem).size := by
    rw [hcount0]
    show 0 + msg.length + 1 ≤ c
    omega
  obtain ⟨hwf1, hsize1, hcont1⟩ := rb_pushAll_ok msg (rb_init c mem) hwf0 hfit
  rw [rb_init_contents, List.nil_append] at hcont1
  have hcount1 : rb_count (rb_pushAll (rb_init c mem) msg) = msg.length := by
    rw [← rb_contents_length, hcont1]
  have hnf : rb_is_full (rb_pushAll (rb_init c mem) msg) = false := by
    apply rb_not_full _ hwf1
    rw [hcount1, hsize1]
    show msg.length ≠ c - 1
    omega
  obtain ⟨rb2, hpush, hwf2, hsize2, _, hcont2⟩ :=
    rb_push_ok (rb_pushAll (rb_init c mem) msg) (crc8 msg) hwf1 hnf
  have hlog : rb_log_message_crc (rb_init c mem) msg = rb2 := by
    simp only [rb_log_message_crc]
    rw [hpush]
  rw [hcont1] at hcont2
  have hcount2 : rb_count rb2 = msg.length + 1 := by
    rw [← rb_contents_length, hcont2]
    simp
  obtain ⟨_, hdr, hemp⟩ := rb_drain_ok (msg.length + 1) rb2 hwf2 hcount2
  rw [hlog]
  refine ⟨hcont2, by rw [hdr, hcont2], ?_, hemp⟩
  rw [hdr, hcont2]
  have htake : (msg ++ [crc8 msg]).take msg.length = msg := by simp
  have hget : (msg ++ [crc8 msg]).getD msg.length 0 = crc8 msg := by simp
  rw [htake, hget]

/-- Witness for C3: the spec's concrete scenario, capacity 8 and message
`"abc"` (`[97, 98, 99]`): exactly 4 bytes resident, draining yields
`'a','b','c'` then the tag, the tag is `crc8 "abc" = 95`, and the buffer
ends empty. -/
theorem crc_roundtrip_witness :
    rb_contents (rb_log_message_crc (rb_init 8 (List.replicate 8 0))
        [97, 98, 99]) = [97, 98, 99] ++ [crc8 [97, 98, 99]] ∧
    (rb_drain (rb_log_message_crc (rb_init 8 (List.replicate 8 0))
        [97, 98, 99]) 4).2 = [97, 98, 99] ++ [crc8 [97, 98, 99]] ∧
    crc8 ((rb_drain (rb_log_message_crc (rb_init 8 (List.replicate 8 0))
        [97, 98, 99]) 4).2.take 3)
      = (rb_drain (rb_log_message_crc (rb_init 8 (List.replicate 8 0))
        [97, 98, 99]) 4).2.getD 3 0 ∧
    rb_is_empty (rb_drain (rb_log_message_crc (rb_init 8 (List.replicate 8 0))
        [97, 98, 99]) 4).1 = true ∧
    crc8 [97, 98, 99] = 95 := by
  obtain ⟨h1, h2, h3, h4⟩ :=
    crc_roundtrip 8 (List.replicate 8 0) [97, 98, 99] (by decide) (by decide)
      (by decide)
  exact ⟨h1, h2, h3, h4, by decide⟩

/-- C8: wrap-around correctness: for every capacity `c ≥ 2` and every
interleaved sequence of pushes and pops on a fresh buffer (in
particular those advancing `head` and `tail` past the capacity any
number of times), the successfully popped bytes followed by the still
resident bytes are exactly the successfully pushed bytes in push
order — FIFO is preserved across index wrap-around. -/
theorem rb_wraparound_fifo (c : Nat) (mem : List Nat) (ops : List RbOp)
    (hc : 2 ≤ c) (hm : mem.length = c) :
    (rb_run (rb_init c mem) ops).2.2
        ++ rb_contents (rb_run (rb_init c mem) ops).1
      = (rb_run (rb_init c mem) ops).2.1 := by
  have hwf0 := rb_init_wf c mem (by omega) hm
  have h := (rb_run_ok ops (rb_init c mem) hwf0).2.2
  rwa [rb_init_contents, List.nil_append] at h

/-- Witness for C8 at capacity 3: seven push/pop cycles advance each
cursor 7 slots, past the capacity twice; the final cursors sit at
`7 % 3 = 1` and the popped bytes equal the pushed bytes in order. -/
theorem rb_wraparound_fifo_witness :
    (rb_run (rb_init 3 [0, 0, 0])
        [RbOp.push 1, RbOp.pop, RbOp.push 2, RbOp.pop, RbOp.push 3, RbOp.pop,
         RbOp.push 4, RbOp.pop, RbOp.push 5, RbOp.pop, RbOp.push 6, RbOp.pop,
         RbOp.push 7, RbOp.pop]).2.2
        ++ rb_contents (rb_run (rb_init 3 [0, 0, 0])
        [RbOp.push 1, RbOp.pop, RbOp.push 2, RbOp.pop, RbOp.push 3, RbOp.pop,
         RbOp.push 4, RbOp.pop, RbOp.push 5, RbOp.pop, RbOp.push 6, RbOp.pop,
         RbOp.push 7, RbOp.pop]).1
      = (rb_run (rb_init 3 [0, 0, 0])
        [RbOp.push 1, RbOp.pop, RbOp.push 2, RbOp.pop, RbOp.push 3, RbOp.pop,
         RbOp.push 4, RbOp.pop, RbOp.push 5, RbOp.pop, RbOp.push 6, RbOp.pop,
         RbOp.push 7, RbOp.pop]).2.1 ∧
    (rb_run (rb_init 3 [0, 0, 0])
        [RbOp.push 1, RbOp.pop, RbOp.push 2, RbOp.pop, RbOp.push 3, RbOp.pop,
         RbOp.push 4, RbOp.pop, RbOp.push 5, RbOp.pop, RbOp.push 6, RbOp.pop,
         RbOp.push 7, RbOp.pop]).1.head = 1 ∧
    (rb_run (rb_init 3 [0, 0, 0])
        [RbOp.push 1, RbOp.pop, RbOp.push 2, RbOp.pop, RbOp.push 3, RbOp.pop,
         RbOp.push 4, RbOp.pop, RbOp.push 5, RbOp.pop, RbOp.push 6, RbOp.pop,
         RbOp.push 7, RbOp.pop]).1.tail = 1 :=
  ⟨rb_wraparound_fifo 3 [0, 0, 0]
      [RbOp.push 1, RbOp.pop, RbOp.push 2, RbOp.pop, RbOp.push 3, RbOp.pop,
       RbOp.push 4, RbOp.pop, RbOp.push 5, RbOp.pop, RbOp.push 6, RbOp.pop,
       RbOp.push 7, RbOp.pop] (by decide) (by decide),
   by decide, by decide⟩

/-- C9: index invariant and full/empty definitions: after any operation
sequence on a fresh buffer of capacity `c ≥ 2`, `head < c` and
`tail < c` hold, the buffer is empty exactly when `head = tail`, full
exactly when `(head + 1) % c = tail`, and at most `c - 1` bytes are
resident. -/
theorem rb_index_invariant (c : Nat) (mem : List Nat) (ops : List RbOp)
    (hc : 2 ≤ c) (hm : mem.length = c) :
    (rb_run (rb_init c mem) ops).1.head < c ∧
    (rb_run (rb_init c mem) ops).1.tail < c ∧
    (rb_is_empty (rb_run (rb_init c mem) ops).1 = true
      ↔ (rb_run (rb_init c mem) ops).1.head
          = (rb_run (rb_init c mem) ops).1.tail) ∧
    (rb_is_full (rb_run (rb_init c mem) ops).1 = true
      ↔ ((rb_run (rb_init c mem) ops).1.head + 1) % c
          = (rb_run (rb_init c mem) ops).1.tail) ∧
    (rb_contents (rb_run (rb_init c mem) ops).1).length ≤ c - 1 := by
  have hwf0 := rb_init_wf c mem (by omega) hm
  obtain ⟨hwfF, hsizeF, _⟩ := rb_run_ok ops (rb_init c mem) hwf0
  have hsz : (rb_run (rb_init c mem) ops).1.size = c := hsizeF
  obtain ⟨hs, hh, ht, hb⟩ := hwfF
  refine ⟨by omega, by omega, ?_, ?_, ?_⟩
  · simp [rb_is_empty]
  · simp [rb_is_full, hsz]
  · have hlt := rb_count_lt (rb_run (rb_init c mem) ops).1 hs
    rw [rb_contents_length]
    omega

/-- Witness for C9 at capacity 2 after two pushes (the second rejected)
and one pop. -/
theorem rb_index_invariant_witness :
    (rb_run (rb_init 2 [0, 0]) [RbOp.push 1, RbOp.push 2, RbOp.pop]).1.head < 2 ∧
    (rb_run (rb_init 2 [0, 0]) [RbOp.push 1, RbOp.push 2, RbOp.pop]).1.tail < 2 ∧
    (rb_is_empty (rb_run (rb_init 2 [0, 0])
        [RbOp.push 1, RbOp.push 2, RbOp.pop]).1 = true
      ↔ (rb_run (rb_init 2 [0, 0]) [RbOp.push 1, RbOp.push 2, RbOp.pop]).1.head
          = (rb_run (rb_init 2 [0, 0])
              [RbOp.push 1, RbOp.push 2, RbOp.pop]).1.tail) ∧
    (rb_is_full (rb_run (rb_init 2 [0, 0])
        [RbOp.push 1, RbOp.push 2, RbOp.pop]).1 = true
      ↔ ((rb_run (rb_init 2 [0, 0])
            [RbOp.push 1, RbOp.push 2, RbOp.pop]).1.head + 1) % 2
          = (rb_run (rb_init 2 [0, 0])
              [RbOp.push 1, RbOp.push 2, RbOp.pop]).1.tail) ∧
    (rb_contents (rb_run (rb_init 2 [0, 0])
        [RbOp.push 1, RbOp.push 2, RbOp.pop]).1).length ≤ 1 :=
  rb_index_invariant 2 [0, 0] [RbOp.push 1, RbOp.push 2, RbOp.pop]
    (by decide) (by decide)

/-- C10: full and empty are mutually exclusive in every state reachable
by push/pop operations from a fresh buffer of capacity `c ≥ 2`. -/
theorem rb_full_empty_exclusive (c : Nat) (mem : List Nat) (ops : List RbOp)
    (hc : 2 ≤ c) (hm : mem.length = c) :
    ¬(rb_is_full (rb_run (rb_init c mem) ops).1 = true ∧
      rb_is_empty (rb_run (rb_init c mem) ops).1 = true) := by
  have hwf0 := rb_init_wf c mem (by omega) hm
  obtain ⟨hwfF, hsizeF, _⟩ := rb_run_ok ops (rb_init c mem) hwf0
  have hsz : (rb_run (rb_init c mem) ops).1.size = c := hsizeF
  obtain ⟨hs, hh, ht, hb⟩ := hwfF
  rintro ⟨hf, he⟩
  simp only [rb_is_full, beq_iff_eq] at hf
  simp only [rb_is_empty, beq_iff_eq] at he
  have hne := succ_mod_ne (rb_run (rb_init c mem) ops).1.head
    (rb_run (rb_init c mem) ops).1.size hh (by omega)
  exact hne (by rw [hf, he])

/-- Witness for C10: a fresh capacity-2 buffer is not simultaneously
full and empty. -/
theorem rb_full_empty_exclusive_witness :
    ¬(rb_is_full (rb_run (rb_init 2 [0, 0]) []).1 = true ∧
      rb_is_empty (rb_run (rb_init 2 [0, 0]) []).1 = true) :=
  rb_full_empty_exclusive 2 [0, 0] [] (by decide) (by decide)
